import Mathlib

/-!
# Verification of the ckeditor5-engine mutation core specification

Shallow embedding of the document-model primitives of the repository:

* tree nodes (`MNode`) with text / element variants and attribute maps,
* the flat-range mutation primitives (insert / remove / move / set-attribute)
  with text-node splitting and merging,
* `MarkerOperation` (`src/unnamed/part_000`) with `getReversed`, `toJSON`,
  `fromJSON`,
* position transformation by insertion / deletion / move (the engine that keeps
  `LivePosition` valid),
* `Node.getIndex` (`src/src/document/node.js`),
* `NodeList.insertNodes` (`src/src/model/nodelist.js`).
-/

namespace CkEngine

/-- Attribute maps: key→value pairs with unique keys (spec §3: "a mapping of
attribute key→value (keys unique)").  Values are modelled as strings. -/
abbrev Attrs := List (String × String)

/-- Document tree node: a text node owns a string payload and attributes,
an element owns a name, attributes and an ordered child list (spec §3). -/
inductive MNode where
  | text (data : String) (attrs : Attrs)
  | element (name : String) (attrs : Attrs) (children : List MNode)

/-- The `offsetSize`: 1 for a normal node, text length for a text node (spec §3). -/
def MNode.offsetSize : MNode → Nat
  | .text d _ => d.length
  | .element _ _ _ => 1

/-- Two adjacent nodes are mergeable when both are text nodes carrying an
identical attribute set (spec §3: such neighbours "must be merged by any
mutating primitive"). -/
def mergeable : MNode → MNode → Bool
  | .text _ a1, .text _ a2 => a1 == a2
  | _, _ => false

/-- The merge invariant on a child list: no two adjacent text nodes share an
identical attribute set (spec §8, "Merge invariant"). -/
def noMergeable : List MNode → Bool
  | [] => true
  | [_] => true
  | a :: b :: rest => !mergeable a b && noMergeable (b :: rest)

/-- Concatenate two child lists, merging the junction pair when it is a
mergeable text/text pair.  This models `_mergeNodesAtIndex` applied at the
junction of the two lists. -/
def mergeJoin : List MNode → List MNode → List MNode
  | [], r => r
  | [a], r =>
    match a, r with
    | .text d1 a1, .text d2 a2 :: rest =>
      if a1 == a2 then .text (d1 ++ d2) a1 :: rest else a :: r
    | _, _ => a :: r
  | a :: b :: l, r => a :: mergeJoin (b :: l) r

/-- Merge every mergeable adjacency inside a node list.  Models the
normalization of nodes handed to the insertion primitive (spec §3: text
neighbours with equal attributes are "never left split unnecessarily"). -/
def mergeNorm (nodes : List MNode) : List MNode :=
  nodes.foldl (fun acc n => mergeJoin acc [n]) []

/-- Split a child list at a given offset.  A text node containing the offset
strictly inside is split into two text nodes with the same attributes; an
offset falling between nodes splits the list there.  Models
`_splitNodeAtPosition` together with locating the split index. -/
def splitOff : List MNode → Nat → List MNode × List MNode
  | l, 0 => ([], l)
  | [], _ + 1 => ([], [])
  | n :: rest, off + 1 =>
    if off + 1 < n.offsetSize then
      match n with
      | .text d a => ([.text (d.take (off + 1)) a], .text (d.drop (off + 1)) a :: rest)
      | .element nm at_ ch => ([.element nm at_ ch], rest)
    else
      let p := splitOff rest (off + 1 - n.offsetSize)
      (n :: p.1, p.2)

/-- Modelled from the spec: `_insert` of `src/model/operation/utils.js` is not
under `src/` (only its tests are).  Inserts normalized nodes at an offset of a
child list: split at the offset, splice the nodes in, merge at the right
junction and then at the left junction (spec §4.2 edge-case policy and §3
merge rule; behaviour matches the tests in
`src/tests/model/operation/utils.js`). -/
def insertFlat (children : List MNode) (off : Nat) (nodes : List MNode) : List MNode :=
  let nn := mergeNorm nodes
  let p := splitOff children off
  mergeJoin p.1 (mergeJoin nn p.2)

/-- Modelled from the spec: `_remove` of `src/model/operation/utils.js` is not
under `src/`.  Detaches the flat range `[s, e)` from a child list: split at
both ends, take out the middle, merge the new junction (spec §4.2; behaviour
matches the tests in `src/tests/model/operation/utils.js`).  Returns the
remaining children and the detached nodes. -/
def removeFlat (children : List MNode) (s e : Nat) : List MNode × List MNode :=
  let p := splitOff children s
  let q := splitOff p.2 (e - s)
  (mergeJoin p.1 q.2, q.1)

/-- Set (`some v`) or remove (`none`) an attribute key in an attribute map,
keeping keys unique. -/
def setAttrList (a : Attrs) (key : String) : Option String → Attrs
  | none => a.filter (fun p => p.1 != key)
  | some v =>
    if a.any (fun p => p.1 == key) then
      a.map (fun p => if p.1 == key then (key, v) else p)
    else a ++ [(key, v)]

/-- Set or remove an attribute on a single node. -/
def MNode.setAttr (n : MNode) (key : String) (val : Option String) : MNode :=
  match n with
  | .text d a => .text d (setAttrList a key val)
  | .element nm a ch => .element nm (setAttrList a key val) ch

/-- Modelled from the spec: `_setAttribute` of `src/model/operation/utils.js`
is not under `src/`.  Sets/removes one attribute across the flat range
`[s, e)`: split at both ends, rewrite every node in the middle while merging
each with its previous neighbour, finally merge at the right junction
(spec §4.2 Attribute variant and §3 merge rule; behaviour matches the tests in
`src/tests/model/operation/utils.js`). -/
def setAttrFlat (children : List MNode) (s e : Nat) (key : String) (val : Option String) :
    List MNode :=
  let p := splitOff children s
  let q := splitOff p.2 (e - s)
  let mid := q.1.map (fun n => n.setAttr key val)
  mergeJoin (mid.foldl (fun acc n => mergeJoin acc [n]) p.1) q.2

/-- Position: a root (identified by name, as in the serialized form
`{root: rootName, path: [...]}` of spec §6) plus a path of offsets
(spec §3).  The last path entry is the position's offset in its parent. -/
structure MPosition where
  root : String
  path : List Nat
  deriving DecidableEq, Repr

/-- The position's offset in its parent: the last path entry. -/
def MPosition.offset (p : MPosition) : Nat := p.path.getLastD 0

/-- Path to the position's parent: all path entries but the last. -/
def MPosition.parentPath (p : MPosition) : List Nat := p.path.dropLast

/-- Range: an ordered pair of positions (spec §3). -/
structure MRange where
  start : MPosition
  endPos : MPosition
  deriving DecidableEq, Repr

/-- A range is flat when its start and end share the same parent, i.e. their
paths differ only in the last element (spec §3). -/
def MRange.isFlat (r : MRange) : Bool :=
  r.start.root == r.endPos.root && r.start.parentPath == r.endPos.parentPath

/-- Result of `compareArrays` (`src/src/model/nodelist.js`, second part of the
file, `utils.compareArrays`): the first differing index, or a flag telling
that the first array is the same as / a proper starting part of / a proper
extension of the second. -/
inductive ArrRel where
  | same
  | shorter
  | longer
  | diffAt (i : Nat)
  deriving DecidableEq, Repr

/-- Loop of `utils.compareArrays`, carrying the current index. -/
def compareArraysAux : List Nat → List Nat → Nat → ArrRel
  | [], [], _ => .same
  | [], _ :: _, _ => .shorter
  | _ :: _, [], _ => .longer
  | x :: xs, y :: ys, i => if x != y then .diffAt i else compareArraysAux xs ys (i + 1)

/-- Function `utils.compareArrays` embedded from `src/src/model/nodelist.js` (second
part of the file): 'SAME' ↦ `.same`, 'PREFIX' ↦ `.shorter`,
'EXTENSION' ↦ `.longer`, a differing index ↦ `.diffAt i`. -/
def compareArrays (a b : List Nat) : ArrRel := compareArraysAux a b 0

/-- Modelled from the spec: the position-by-insertion transformation used by
`LivePosition` is not under `src/` (only its tests, in
`src/src/conversion/viewconversiondispatcher.js`, second part of the file).
Spec §4.3: disjoint case shifts by the inserted length when the insertion
precedes the position in the same parent; the same-insertion-point tie is
resolved by stickiness (`insertBefore` true = position sticks to the content
after it, so it moves); an insertion before a node lying on the position's
path bumps that path entry. -/
def getTransformedByInsertion (p ins : MPosition) (howMany : Nat) (insertBefore : Bool) :
    MPosition :=
  if p.root != ins.root then p
  else
    match compareArrays ins.parentPath p.parentPath with
    | .same =>
      if ins.offset < p.offset || (ins.offset == p.offset && insertBefore) then
        ⟨p.root, p.parentPath ++ [p.offset + howMany]⟩
      else p
    | .shorter =>
      let i := ins.path.length - 1
      if ins.offset ≤ p.path.getD i 0 then
        ⟨p.root, p.path.set i (p.path.getD i 0 + howMany)⟩
      else p
    | _ => p

/-- Modelled from the spec: the position-by-deletion transformation is not
under `src/`.  Spec §4.3: a deletion before the position in the same parent
shifts it down by the removed length; a position strictly inside the removed
range has no image (`none`, the under-specified collapse case of §9); a
deletion elsewhere leaves the position unchanged. -/
def getTransformedByDeletion (p del : MPosition) (howMany : Nat) : Option MPosition :=
  if p.root != del.root then some p
  else
    match compareArrays del.parentPath p.parentPath with
    | .same =>
      if del.offset < p.offset then
        if del.offset + howMany > p.offset then none
        else some ⟨p.root, p.parentPath ++ [p.offset - howMany]⟩
      else some p
    | .shorter =>
      let i := del.path.length - 1
      let c := p.path.getD i 0
      if del.offset ≤ c then
        if del.offset + howMany > c then none
        else some ⟨p.root, p.path.set i (c - howMany)⟩
      else some p
    | _ => some p

/-- Modelled from the spec: rewriting the address of a position that sat
inside a moved range, relative to the new parent/offset of the moved content
(spec §4.3, "B's addressing is rewritten relative to the new parent/offset"). -/
def getCombined (p source target : MPosition) : MPosition :=
  let i := source.path.length - 1
  ⟨target.root,
    (target.parentPath ++ [target.offset + (p.path.getD i 0 - source.offset)])
      ++ p.path.drop (i + 1)⟩

/-- Modelled from the spec: the position-by-move transformation is not under
`src/`.  The target is first adjusted for the removal of the moved range; a
position inside the moved range follows the content (`getCombined`), any other
position is transformed by the deletion at the source and then by the
insertion at the adjusted target (spec §4.3). -/
def getTransformedByMove (p source target : MPosition) (howMany : Nat) (insertBefore : Bool) :
    MPosition :=
  let target' := (getTransformedByDeletion target source howMany).getD target
  match getTransformedByDeletion p source howMany with
  | none => getCombined p source target'
  | some q => getTransformedByInsertion q target' howMany insertBefore

mutual

/-- Apply `f` to the child list addressed by the parent path `pp` inside node
`n`, rebuilding the tree around the result.  `none` when the path does not
resolve to an element (spec §3 position validity). -/
def modifyAtParentPath {α : Type} (n : MNode) (pp : List Nat) (f : List MNode → List MNode × α) :
    Option (MNode × α) :=
  match n, pp with
  | .element nm a ch, [] => some (.element nm a (f ch).1, (f ch).2)
  | .text _ _, [] => none
  | .text _ _, _ :: _ => none
  | .element nm a ch, o :: rest =>
    (modifyChildren ch o rest f).map (fun r => (.element nm a r.1, r.2))

/-- Walk a child list to the child occupying offset `off`, descend into it and
continue with the remaining path. -/
def modifyChildren {α : Type} (ch : List MNode) (off : Nat) (rest : List Nat)
    (f : List MNode → List MNode × α) : Option (List MNode × α) :=
  match ch with
  | [] => none
  | c :: cs =>
    if off < c.offsetSize then
      (modifyAtParentPath c rest f).map (fun r => (r.1 :: cs, r.2))
    else
      (modifyChildren cs (off - c.offsetSize) rest f).map (fun r => (c :: r.1, r.2))

end

/-- Modelled from the spec: operation-level `_remove` of
`src/model/operation/utils.js` (not under `src/`; its tests are in
`src/tests/model/operation/utils.js`).  A non-flat range fails with the
`operation-utils-remove-range-not-flat` error before any mutation (spec §4.2);
otherwise the flat range is detached from its parent and returned together
with the new tree. -/
def opRemove (root : MNode) (r : MRange) : Except String (MNode × List MNode) :=
  if !r.isFlat then .error "operation-utils-remove-range-not-flat"
  else
    match modifyAtParentPath root r.start.parentPath
        (fun ch => removeFlat ch r.start.offset r.endPos.offset) with
    | some (n, removed) => .ok (n, removed)
    | none => .error "model-position-invalid"

/-- Modelled from the spec: operation-level `_insert` of
`src/model/operation/utils.js` (not under `src/`).  Inserts nodes at the
position, splitting and merging text nodes at the boundaries (spec §4.2). -/
def opInsert (root : MNode) (pos : MPosition) (nodes : List MNode) : Except String MNode :=
  match modifyAtParentPath root pos.parentPath
      (fun ch => (insertFlat ch pos.offset nodes, ())) with
  | some (n, _) => .ok n
  | none => .error "model-position-invalid"

/-- Modelled from the spec: operation-level `_move` of
`src/model/operation/utils.js` (not under `src/`).  A non-flat range fails
with the `operation-utils-move-range-not-flat` error before any mutation
(spec §4.2); otherwise the range is detached and re-inserted at the target,
whose offset is first adjusted for the removal (spec §4.2 Move variant); a
target inside the moved range is invalid (spec §4.2 `InvalidTargetError`). -/
def opMove (root : MNode) (r : MRange) (target : MPosition) : Except String MNode :=
  if !r.isFlat then .error "operation-utils-move-range-not-flat"
  else
    match opRemove root r with
    | .error e => .error e
    | .ok (root', nodes) =>
      match getTransformedByDeletion target r.start (r.endPos.offset - r.start.offset) with
      | none => .error "move-operation-invalid-target"
      | some t' => opInsert root' t' nodes

/-- Marker collection (`document.model.markers`): the named-range store a
`MarkerOperation` executes against.  Only its identity matters to the
serialization claims; modelled as its entries. -/
structure MarkerCollection where
  entries : List (String × MRange)
  deriving DecidableEq, Repr

/-- Class `MarkerOperation` embedded from `src/unnamed/part_000` (second part of the
file): name, old range, new range (each possibly null), the private marker
collection reference, `baseVersion` and `affectsData`. -/
structure MarkerOperation where
  name : String
  oldRange : Option MRange
  newRange : Option MRange
  markers : MarkerCollection
  baseVersion : Int
  affectsData : Bool
  deriving DecidableEq, Repr

/-- Method `Range.createFromRange`: a fresh range equal to the given one (value copy;
in the pure embedding a clone is the value itself). -/
def MRange.createFromRange (r : MRange) : MRange := ⟨r.start, r.endPos⟩

/-- The `MarkerOperation` constructor from `src/unnamed/part_000`: stores the
name, clones of the non-null ranges (`oldRange ? Range.createFromRange(...) :
null`), the marker collection, the base version and the `affectsData` flag. -/
def MarkerOperation.make (name : String) (oldRange newRange : Option MRange)
    (markers : MarkerCollection) (baseVersion : Int) (affectsData : Bool) : MarkerOperation :=
  { name := name
    oldRange := oldRange.map MRange.createFromRange
    newRange := newRange.map MRange.createFromRange
    markers := markers
    baseVersion := baseVersion
    affectsData := affectsData }

/-- Method `MarkerOperation.getReversed` embedded from `src/unnamed/part_000`:
`new MarkerOperation( this.name, this.newRange, this.oldRange, this._markers,
this.baseVersion + 1, this.affectsData )`. -/
def MarkerOperation.getReversed (op : MarkerOperation) : MarkerOperation :=
  MarkerOperation.make op.name op.newRange op.oldRange op.markers (op.baseVersion + 1)
    op.affectsData

/-- Serialized form of an operation: plain data with the `className`
discriminator, `baseVersion` and the variant-specific fields (spec §6).
Positions already serialize to `{root: rootName, path}`, which is exactly the
`MPosition` value, so range JSON is the range value itself.  `markers` models
the `_markers` own-property of the naive base-class clone; `delete
json._markers` sets it to `none`. -/
structure OperationJSON where
  className : String
  name : String
  oldRange : Option MRange
  newRange : Option MRange
  markers : Option MarkerCollection
  baseVersion : Int
  affectsData : Bool
  deriving DecidableEq, Repr

/-- Modelled from the spec: the base `Operation.toJSON` is not under `src/`.
Spec §6: "`toJSON()` produces a plain object with a `className` discriminator,
`baseVersion`, and variant-specific fields"; the clone carries every own
property of the operation, including the private `_markers` reference that
`MarkerOperation.toJSON` then deletes. -/
def MarkerOperation.baseToJSON (op : MarkerOperation) : OperationJSON :=
  { className := "MarkerOperation"
    name := op.name
    oldRange := op.oldRange
    newRange := op.newRange
    markers := some op.markers
    baseVersion := op.baseVersion
    affectsData := op.affectsData }

/-- Method `MarkerOperation.toJSON` embedded from `src/unnamed/part_000`: take the
base serialization, replace the non-null ranges by their JSON (identity on
these plain values) and `delete json._markers`. -/
def MarkerOperation.toJSON (op : MarkerOperation) : OperationJSON :=
  let json := op.baseToJSON
  { json with
    oldRange := op.oldRange.map MRange.createFromRange
    newRange := op.newRange.map MRange.createFromRange
    markers := none }

/-- The document context handed to `fromJSON`: exposes `document.model.markers`
(spec §6, resolving against the live document). -/
structure MDocument where
  markers : MarkerCollection
  deriving DecidableEq, Repr

/-- Method `MarkerOperation.fromJSON` embedded from `src/unnamed/part_000`:
`new MarkerOperation( json.name, json.oldRange ? Range.fromJSON(...) : null,
json.newRange ? Range.fromJSON(...) : null, document.model.markers,
json.baseVersion, json.affectsData )`.  Per spec §6 `Range.fromJSON` is the
exact inverse of `Range.toJSON`, the identity on these plain values. -/
def MarkerOperation.fromJSON (json : OperationJSON) (document : MDocument) : MarkerOperation :=
  MarkerOperation.make json.name json.oldRange json.newRange document.markers
    json.baseVersion json.affectsData

/-- JavaScript `Array.prototype.indexOf` on a list of node identities: index of
the first occurrence, or `-1`. -/
def jsIndexOf : List Nat → Nat → Int
  | [], _ => -1
  | x :: xs, v =>
    if x == v then 0
    else
      let r := jsIndexOf xs v
      if r == -1 then -1 else r + 1

/-- A document node as seen by `Node.getIndex` (`src/src/document/node.js`):
its identity and, when attached, the child identities of the element it claims
as parent (`parent.getChildIndex(this)` is an identity lookup in that list). -/
structure DNode where
  id : Nat
  parent : Option (List Nat)
  deriving DecidableEq, Repr

/-- Method `Node.getIndex` embedded from `src/src/document/node.js` lines 51–69:
`null` when the node has no parent; the index returned by
`parent.getChildIndex(this)` when it is not `-1`; otherwise the
`node-not-found-in-parent` tree-corruption error. -/
def DNode.getIndex (n : DNode) : Except String (Option Int) :=
  match n.parent with
  | none => .ok none
  | some children =>
    let pos := jsIndexOf children n.id
    if pos == -1 then .error "node-not-found-in-parent"
    else .ok (some pos)

/-- A value handed to `NodeList.insertNodes`: either a model node or some
non-`Node` object. -/
inductive NLValue where
  | node (n : MNode)
  | other

/-- Is the value a `Node` instance? -/
def NLValue.isNode : NLValue → Bool
  | .node _ => true
  | .other => false

/-- The validation loop of `NodeList.insertNodes`
(`src/src/model/nodelist.js` lines 162–172): every value is checked to be a
`Node` instance before anything is spliced; the first non-node aborts with the
`nodelist-insertNodes-not-node` error. -/
def validateNodes : List NLValue → Except String Unit
  | [] => .ok ()
  | .node _ :: rest => validateNodes rest
  | .other :: _ => .error "nodelist-insertNodes-not-node"

/-- Payloads of a list of validated values. -/
def nodePayload (values : List NLValue) : List MNode :=
  values.filterMap (fun v => match v with | .node n => some n | .other => none)

/-- The call `this._nodes.splice( index, 0, ...nodes )`: insert at the index (clamped
to the length, as JavaScript `splice` does for a too-large index). -/
def spliceIn (l : List MNode) (index : Nat) (nodes : List MNode) : List MNode :=
  l.take index ++ nodes ++ l.drop index

/-- Class `NodeList` (`src/src/model/nodelist.js`): an array of nodes. -/
structure NodeList where
  _nodes : List MNode

/-- Method `NodeList.insertNodes` embedded from `src/src/model/nodelist.js` lines
161–175: run the validation loop over the whole iterable first, then splice
the nodes in at the index. -/
def NodeList.insertNodes (nl : NodeList) (index : Nat) (values : List NLValue) :
    Except String NodeList :=
  match validateNodes values with
  | .error e => .error e
  | .ok _ => .ok ⟨spliceIn nl._nodes index (nodePayload values)⟩

/-! ## Helper lemmas -/

/-- A range clone is value-equal to the original. -/
theorem MRange.createFromRange_eq (r : MRange) : r.createFromRange = r := rfl

/-- Cloning under `Option.map` is the identity. -/
theorem optionMap_createFromRange (o : Option MRange) : o.map MRange.createFromRange = o := by
  cases o <;> rfl

/-! ## Claim theorems -/

/-- C2: for every MarkerOperation with name n, old range o, new range r and
baseVersion v, getReversed() returns a MarkerOperation with the old and new
ranges swapped (old range r, new range o), the same name n, and baseVersion
equal to v + 1. -/
theorem markerOperation_getReversed_spec (op : MarkerOperation) :
    op.getReversed.name = op.name ∧
    op.getReversed.oldRange = op.newRange ∧
    op.getReversed.newRange = op.oldRange ∧
    op.getReversed.baseVersion = op.baseVersion + 1 ∧
    op.getReversed.markers = op.markers ∧
    op.getReversed.affectsData = op.affectsData := by
  simp [MarkerOperation.getReversed, MarkerOperation.make, optionMap_createFromRange]

/-- C3: for every MarkerOperation (with or without null old/new ranges) and
every document context, fromJSON(op.toJSON(), doc).toJSON() deep-equals
op.toJSON(); the serialized form carries the className discriminator and the
baseVersion, and no reference to the marker collection (the _markers field is
removed). -/
theorem markerOperation_roundTrip_spec (op : MarkerOperation) (doc : MDocument) :
    (MarkerOperation.fromJSON op.toJSON doc).toJSON = op.toJSON ∧
    op.toJSON.className = "MarkerOperation" ∧
    op.toJSON.baseVersion = op.baseVersion ∧
    op.toJSON.markers = none := by
  simp [MarkerOperation.fromJSON, MarkerOperation.toJSON, MarkerOperation.baseToJSON,
    MarkerOperation.make, optionMap_createFromRange]

/-- C5: a LivePosition at path [1,4,6] with default stickiness (sticking to
the next content): an Insert of 3 nodes at [1,4,0] moves its path to [1,4,9];
the same Insert at [1,4,7] (an offset greater than the tracked offset, same
parent) leaves its path unchanged at [1,4,6]. -/
theorem livePosition_insert_scenario :
    getTransformedByInsertion ⟨"main", [1, 4, 6]⟩ ⟨"main", [1, 4, 0]⟩ 3 true
      = ⟨"main", [1, 4, 9]⟩ ∧
    getTransformedByInsertion ⟨"main", [1, 4, 6]⟩ ⟨"main", [1, 4, 7]⟩ 3 true
      = ⟨"main", [1, 4, 6]⟩ := by
  constructor <;> rfl

/-- C8: for every range whose start and end positions do not share the same
parent (a non-flat range), the Remove and Move primitives fail with the
corresponding operation-utils-*-range-not-flat error instead of mutating the
tree. -/
theorem nonFlatRange_error_spec (root : MNode) (r : MRange) (target : MPosition)
    (h : r.isFlat = false) :
    opRemove root r = .error "operation-utils-remove-range-not-flat" ∧
    opMove root r target = .error "operation-utils-move-range-not-flat" := by
  unfold opRemove opMove
  rw [h]
  simp

/-- Witness for C8 at the non-flat range of the repository's test
(`[ 0 ]` to `[ 1, 2 ]`). -/
theorem nonFlatRange_error_spec_witness :
    opRemove (.element "$root" [] []) ⟨⟨"main", [0]⟩, ⟨"main", [1, 2]⟩⟩
      = .error "operation-utils-remove-range-not-flat" ∧
    opMove (.element "$root" [] []) ⟨⟨"main", [0]⟩, ⟨"main", [1, 2]⟩⟩ ⟨"main", [0]⟩
      = .error "operation-utils-move-range-not-flat" :=
  nonFlatRange_error_spec (.element "$root" [] []) ⟨⟨"main", [0]⟩, ⟨"main", [1, 2]⟩⟩
    ⟨"main", [0]⟩ (by decide)

/-- The document of the repository's operation-utils tests:
`root = Text("foo") + Text("bar", {bold:true}) + Element("image", {src}) +
Text("xyz")`. -/
def demoChildren : List MNode :=
  [ .text "foo" [], .text "bar" [("bold", "true")],
    .element "image" [("src", "img.jpg")] [], .text "xyz" [] ]

/-- The root element holding `demoChildren`. -/
def demoRoot : MNode := .element "$root" [] demoChildren

/-- C1 counterexample: removing the flat range [3,7) from the demo document
does not leave "foo" and the post-image "xyz" distinct — the range covers
"bar" and the image, and the adjacent "foo" and "xyz" merge into the single
text node "fooxyz" (exactly what the repository's test
"should merge text nodes if possible" asserts: data 'fooxyz', childCount 1). -/
theorem remove_scenario_counterexample :
    opRemove demoRoot ⟨⟨"main", [3]⟩, ⟨"main", [7]⟩⟩
      = .ok (.element "$root" [] [.text "fooxyz" []],
             [.text "bar" [("bold", "true")], .element "image" [("src", "img.jpg")] []]) ∧
    (MNode.element "$root" [] [.text "fooxyz" []]
      ≠ .element "$root" []
          [.text "foo" [], .element "image" [("src", "img.jpg")] [], .text "xyz" []]) := by
  constructor
  · rfl
  · simp

/-- C1 (amended): removing the flat range [3,7) from the demo document
detaches Text("bar",{bold:true}) and the image element, and the remaining
adjacent "foo" and "xyz" text nodes are merged into the single text node
"fooxyz" (one child). -/
theorem remove_scenario_spec :
    opRemove demoRoot ⟨⟨"main", [3]⟩, ⟨"main", [7]⟩⟩
      = .ok (.element "$root" [] [.text "fooxyz" []],
             [.text "bar" [("bold", "true")], .element "image" [("src", "img.jpg")] []]) := by
  rfl

/-- Comparing an array with itself yields `.same` at any loop index. -/
theorem compareArraysAux_self (a : List Nat) : ∀ i, compareArraysAux a a i = .same := by
  induction a with
  | nil => intro i; rfl
  | cons x xs ih => intro i; simp [compareArraysAux, ih]

/-- C6: when content is inserted exactly at a position's offset, a position
sticking to the previous content does not move, while a position with default
stickiness (sticking to next) moves forward by the inserted length. -/
theorem stickiness_insert_spec (root : String) (pp : List Nat) (off howMany : Nat) :
    getTransformedByInsertion ⟨root, pp ++ [off]⟩ ⟨root, pp ++ [off]⟩ howMany false
      = ⟨root, pp ++ [off]⟩ ∧
    getTransformedByInsertion ⟨root, pp ++ [off]⟩ ⟨root, pp ++ [off]⟩ howMany true
      = ⟨root, pp ++ [off + howMany]⟩ := by
  have hpp : (MPosition.mk root (pp ++ [off])).parentPath = pp := by
    simp [MPosition.parentPath]
  have hoff : (MPosition.mk root (pp ++ [off])).offset = off := by
    simp [MPosition.offset]
  constructor <;>
    simp [getTransformedByInsertion, hpp, hoff, compareArrays, compareArraysAux_self]

/-- C7: a LivePosition at [1,4,6] strictly after the moved range [1,4,0)–[1,4,3)
in the same parent is transformed by the move to [1,4,3] — shifted down by the
3 removed units — for the spec's target [2,0] and for any target [k,m] in a
root-level parent other than the position's own subtree. -/
theorem livePosition_move_scenario :
    getTransformedByMove ⟨"main", [1, 4, 6]⟩ ⟨"main", [1, 4, 0]⟩ ⟨"main", [2, 0]⟩ 3 true
      = ⟨"main", [1, 4, 3]⟩ ∧
    ∀ k m : Nat, k ≠ 1 →
      getTransformedByMove ⟨"main", [1, 4, 6]⟩ ⟨"main", [1, 4, 0]⟩ ⟨"main", [k, m]⟩ 3 true
        = ⟨"main", [1, 4, 3]⟩ := by
  refine ⟨rfl, ?_⟩
  intro k m hk
  have h1 : (1 != k) = true := bne_iff_ne.mpr (Ne.symm hk)
  have h2 : (k != 1) = true := bne_iff_ne.mpr hk
  simp [getTransformedByMove, getTransformedByDeletion, getTransformedByInsertion,
    compareArrays, compareArraysAux, MPosition.offset, MPosition.parentPath, h1, h2]

/-- Witness for C7 at the concrete target [2,0]. -/
theorem livePosition_move_scenario_witness :
    getTransformedByMove ⟨"main", [1, 4, 6]⟩ ⟨"main", [1, 4, 0]⟩ ⟨"main", [2, 0]⟩ 3 true
      = ⟨"main", [1, 4, 3]⟩ :=
  livePosition_move_scenario.2 2 0 (by decide)

/-- Function `jsIndexOf` either finds the first occurrence (agreeing with
`List.indexOf`) or reports `-1` exactly for a missing value. -/
theorem jsIndexOf_spec (l : List Nat) (v : Nat) :
    (v ∈ l ∧ jsIndexOf l v = ((l.indexOf v : Nat) : Int)) ∨
    (v ∉ l ∧ jsIndexOf l v = -1) := by
  induction l with
  | nil => exact .inr ⟨by simp, rfl⟩
  | cons x xs ih =>
    by_cases hx : x = v
    · subst hx
      exact .inl ⟨by simp, by simp [jsIndexOf, List.indexOf_cons]⟩
    · have hbne : (x == v) = false := beq_eq_false_iff_ne.mpr hx
      rcases ih with ⟨hm, he⟩ | ⟨hm, he⟩
      · refine .inl ⟨List.mem_cons_of_mem _ hm, ?_⟩
        have hnn : jsIndexOf xs v ≠ -1 := by rw [he]; omega
        simp only [jsIndexOf, hbne, if_false, List.indexOf_cons]
        rw [if_neg (by simp [hnn]), he]
        simp [hbne]
      · refine .inr ⟨by simp [hx, Ne.symm hx, hm], ?_⟩
        simp only [jsIndexOf, hbne, if_false]
        rw [he]
        rfl

/-- C9: getIndex() returns null exactly when the node has no parent, returns
the node's index in the parent's children when the parent contains it, and
throws the node-not-found-in-parent tree-corruption error exactly when the
node has a parent whose children do not contain it. -/
theorem node_getIndex_spec (n : DNode) :
    (n.getIndex = .ok none ↔ n.parent = none) ∧
    (∀ ch, n.parent = some ch → n.id ∈ ch →
        n.getIndex = .ok (some ((ch.indexOf n.id : Nat) : Int))) ∧
    (n.getIndex = .error "node-not-found-in-parent" ↔
        ∃ ch, n.parent = some ch ∧ n.id ∉ ch) := by
  obtain ⟨nid, pr⟩ := n
  cases pr with
  | none =>
    refine ⟨?_, ?_, ?_⟩
    · simp [DNode.getIndex]
    · intro ch h
      cases h
    · simp [DNode.getIndex]
  | some ch =>
    rcases jsIndexOf_spec ch nid with ⟨hm, he⟩ | ⟨hm, he⟩
    · have hnn : (((ch.indexOf nid : Nat) : Int) == -1) = false := by
        apply beq_eq_false_iff_ne.mpr
        omega
      refine ⟨?_, ?_, ?_⟩
      · simp [DNode.getIndex, he, hnn]
      · intro ch' hch' _
        obtain rfl : ch = ch' := by injection hch'
        simp [DNode.getIndex, he, hnn]
      · simp only [DNode.getIndex, he, hnn]
        constructor
        · intro h; cases h
        · rintro ⟨ch', hch', hnm⟩
          obtain rfl : ch = ch' := by injection hch'
          exact absurd hm hnm
    · refine ⟨?_, ?_, ?_⟩
      · simp [DNode.getIndex, he]
      · intro ch' hch' hmem
        obtain rfl : ch = ch' := by injection hch'
        exact absurd hmem hm
      · simp only [DNode.getIndex, he]
        constructor
        · intro _; exact ⟨ch, rfl, hm⟩
        · intro _; rfl

/-- Witness for C9: a contained child gets its index; a node claiming a
parent that does not hold it gets the tree-corruption error. -/
theorem node_getIndex_spec_witness :
    DNode.getIndex ⟨7, some [5, 7]⟩ = .ok (some (([5, 7].indexOf 7 : Nat) : Int)) ∧
    DNode.getIndex ⟨3, some [5, 7]⟩ = .error "node-not-found-in-parent" ∧
    DNode.getIndex ⟨3, none⟩ = .ok none :=
  ⟨(node_getIndex_spec ⟨7, some [5, 7]⟩).2.1 [5, 7] rfl (by decide),
   (node_getIndex_spec ⟨3, some [5, 7]⟩).2.2.mpr ⟨[5, 7], rfl, by decide⟩,
   (node_getIndex_spec ⟨3, none⟩).1.mpr rfl⟩

/-- The validation loop rejects a list containing a non-node. -/
theorem validateNodes_error (values : List NLValue) (v : NLValue) (hv : v ∈ values)
    (hn : v.isNode = false) :
    validateNodes values = .error "nodelist-insertNodes-not-node" := by
  induction values with
  | nil => cases hv
  | cons w ws ih =>
    cases w with
    | node n =>
      rcases List.mem_cons.mp hv with rfl | hv'
      · cases hn
      · simpa [validateNodes] using ih hv'
    | other => rfl

/-- The validation loop accepts a list of nodes. -/
theorem validateNodes_ok (values : List NLValue) (h : ∀ v ∈ values, v.isNode = true) :
    validateNodes values = .ok () := by
  induction values with
  | nil => rfl
  | cons w ws ih =>
    cases w with
    | node n => simpa [validateNodes] using ih fun v hv => h v (List.mem_cons_of_mem _ hv)
    | other => exact absurd (h _ (List.mem_cons_self _ _)) (by decide)

/-- A list passing validation is a list of node payloads. -/
theorem allNodes_payload (values : List NLValue) (h : ∀ v ∈ values, v.isNode = true) :
    values = (nodePayload values).map NLValue.node := by
  induction values with
  | nil => rfl
  | cons w ws ih =>
    cases w with
    | node n =>
      simpa [nodePayload] using ih fun v hv => h v (List.mem_cons_of_mem _ hv)
    | other => exact absurd (h _ (List.mem_cons_self _ _)) (by decide)

/-- C10: insertNodes(index, values) with an iterable containing at least one
value that is not a Node instance throws nodelist-insertNodes-not-node and
produces no modified node list — validation of all values completes before
any element is spliced in; when all values are Nodes, they are inserted at
the index and the length grows by their count. -/
theorem nodeList_insertNodes_spec (nl : NodeList) (index : Nat) (values : List NLValue) :
    ((∃ v ∈ values, v.isNode = false) →
      nl.insertNodes index values = .error "nodelist-insertNodes-not-node") ∧
    ((∀ v ∈ values, v.isNode = true) →
      ∃ ns : List MNode, values = ns.map NLValue.node ∧
        nl.insertNodes index values
          = .ok ⟨nl._nodes.take index ++ ns ++ nl._nodes.drop index⟩ ∧
        (nl._nodes.take index ++ ns ++ nl._nodes.drop index).length
          = nl._nodes.length + values.length) := by
  constructor
  · rintro ⟨v, hv, hn⟩
    simp [NodeList.insertNodes, validateNodes_error values v hv hn]
  · intro h
    refine ⟨nodePayload values, allNodes_payload values h, ?_, ?_⟩
    · simp [NodeList.insertNodes, validateNodes_ok values h, spliceIn]
    · have hlen : (nodePayload values).length = values.length := by
        conv_rhs => rw [allNodes_payload values h]
        simp
      simp [hlen]
      omega

/-- Witness for C10: a non-node value is rejected; a node value is spliced in
at the index and the length grows by one. -/
theorem nodeList_insertNodes_spec_witness :
    (NodeList.insertNodes ⟨[MNode.text "a" []]⟩ 0 [NLValue.other]
      = .error "nodelist-insertNodes-not-node") ∧
    (∃ ns : List MNode,
      [NLValue.node (MNode.element "p" [] [])] = ns.map NLValue.node ∧
        NodeList.insertNodes ⟨[MNode.text "a" []]⟩ 1 [NLValue.node (MNode.element "p" [] [])]
          = .ok ⟨[MNode.text "a" []].take 1 ++ ns ++ [MNode.text "a" []].drop 1⟩ ∧
        ([MNode.text "a" []].take 1 ++ ns ++ [MNode.text "a" []].drop 1).length
          = [MNode.text "a" []].length + [NLValue.node (MNode.element "p" [] [])].length) :=
  ⟨(nodeList_insertNodes_spec ⟨[MNode.text "a" []]⟩ 0 [NLValue.other]).1
      ⟨.other, List.mem_cons_self _ _, rfl⟩,
   (nodeList_insertNodes_spec ⟨[MNode.text "a" []]⟩ 1
        [NLValue.node (MNode.element "p" [] [])]).2
      (by
        intro v hv
        rcases List.mem_cons.mp hv with rfl | h
        · rfl
        · cases h)⟩

/-! ## Merge-invariant lemmas (C4) -/

/-- Mergeability with a text node depends only on its attributes. -/
theorem mergeable_of_text (d1 d2 : String) (a : Attrs) (x : MNode) :
    mergeable (.text d1 a) x = mergeable (.text d2 a) x := by
  cases x <;> rfl

/-- Mergeability against a text node depends only on its attributes. -/
theorem mergeable_text_right (d1 d2 : String) (a : Attrs) (x : MNode) :
    mergeable x (.text d1 a) = mergeable x (.text d2 a) := by
  cases x <;> rfl

/-- An element never merges with anything. -/
theorem mergeable_element_left (nm : String) (a : Attrs) (ch : List MNode) (x : MNode) :
    mergeable (.element nm a ch) x = false := by
  cases x <;> rfl

/-- The invariant on a tail of an invariant list. -/
theorem noMergeable_tail (a : MNode) (l : List MNode) (h : noMergeable (a :: l) = true) :
    noMergeable l = true := by
  cases l with
  | nil => rfl
  | cons b t =>
    simp only [noMergeable, Bool.and_eq_true] at h
    exact h.2

/-- The head pair of an invariant list is not mergeable. -/
theorem noMergeable_cons_head (a b : MNode) (t : List MNode)
    (h : noMergeable (a :: b :: t) = true) : mergeable a b = false := by
  simp only [noMergeable, Bool.and_eq_true, Bool.not_eq_true'] at h
  exact h.1

/-- Building an invariant cons list from its parts. -/
theorem noMergeable_cons (a : MNode) (l : List MNode)
    (h1 : ∀ c t, l = c :: t → mergeable a c = false) (h2 : noMergeable l = true) :
    noMergeable (a :: l) = true := by
  cases l with
  | nil => rfl
  | cons b t =>
    simp only [noMergeable, Bool.and_eq_true, Bool.not_eq_true']
    exact ⟨h1 b t rfl, h2⟩

/-- Applying `mergeJoin` to a non-empty left list starts with a node that merges with
exactly the same neighbours as the left list's head. -/
theorem mergeJoin_cons_head (b : MNode) (l r : List MNode) :
    ∃ c t, mergeJoin (b :: l) r = c :: t ∧ ∀ a, mergeable a c = mergeable a b := by
  cases l with
  | nil =>
    cases b with
    | text d1 a1 =>
      cases r with
      | nil => exact ⟨.text d1 a1, [], rfl, fun a => rfl⟩
      | cons r0 rt =>
        cases r0 with
        | text d2 a2 =>
          by_cases hab : (a1 == a2) = true
          · refine ⟨.text (d1 ++ d2) a1, rt, ?_, fun a => mergeable_text_right _ _ a1 a⟩
            simp [mergeJoin, hab]
          · refine ⟨.text d1 a1, .text d2 a2 :: rt, ?_, fun a => rfl⟩
            simp [mergeJoin, hab]
        | element nm at_ ch =>
          exact ⟨.text d1 a1, .element nm at_ ch :: rt, rfl, fun a => rfl⟩
    | element nm at_ ch =>
      cases r with
      | nil => exact ⟨.element nm at_ ch, [], rfl, fun a => rfl⟩
      | cons r0 rt =>
        cases r0 <;> exact ⟨.element nm at_ ch, _ :: rt, rfl, fun a => rfl⟩
  | cons b2 lt =>
    exact ⟨b, mergeJoin (b2 :: lt) r, rfl, fun a => rfl⟩

/-- Function `mergeJoin` preserves the merge invariant. -/
theorem noMergeable_mergeJoin (l r : List MNode) (hl : noMergeable l = true)
    (hr : noMergeable r = true) : noMergeable (mergeJoin l r) = true := by
  induction l with
  | nil => simpa [mergeJoin] using hr
  | cons b lt ih =>
    cases lt with
    | nil =>
      cases b with
      | text d1 a1 =>
        cases r with
        | nil => rfl
        | cons r0 rt =>
          cases r0 with
          | text d2 a2 =>
            by_cases hab : (a1 == a2) = true
            · have ha : a1 = a2 := eq_of_beq hab
              subst ha
              show noMergeable (mergeJoin [.text d1 a1] (.text d2 a1 :: rt)) = true
              have hred : mergeJoin [.text d1 a1] (.text d2 a1 :: rt)
                  = .text (d1 ++ d2) a1 :: rt := by
                simp [mergeJoin]
              rw [hred]
              cases rt with
              | nil => rfl
              | cons r1 rt' =>
                have h1 : mergeable (.text d2 a1) r1 = false :=
                  noMergeable_cons_head _ _ _ hr
                have h2 : noMergeable (r1 :: rt') = true := noMergeable_tail _ _ hr
                refine noMergeable_cons _ _ ?_ h2
                intro c t hct
                injection hct with hc ht
                subst hc
                rw [mergeable_of_text (d1 ++ d2) d2 a1 r1]
                exact h1
            · have hred : mergeJoin [.text d1 a1] (.text d2 a2 :: rt)
                  = .text d1 a1 :: .text d2 a2 :: rt := by
                simp [mergeJoin, hab]
              rw [hred]
              refine noMergeable_cons _ _ ?_ hr
              intro c t hct
              injection hct with hc ht
              subst hc
              simpa [mergeable] using hab
          | element nm at_ ch =>
            have hred : mergeJoin [.text d1 a1] (.element nm at_ ch :: rt)
                = .text d1 a1 :: .element nm at_ ch :: rt := rfl
            rw [hred]
            refine noMergeable_cons _ _ ?_ hr
            intro c t hct
            injection hct with hc ht
            subst hc
            rfl
      | element nm a1 ch =>
        have hred : mergeJoin [.element nm a1 ch] r = .element nm a1 ch :: r := by
          cases r with
          | nil => rfl
          | cons r0 rt => cases r0 <;> rfl
        rw [hred]
        refine noMergeable_cons _ _ ?_ hr
        intro c t hct
        subst hct
        exact mergeable_element_left nm a1 ch c
    | cons b2 lt' =>
      have hb : mergeable b b2 = false := noMergeable_cons_head _ _ _ hl
      have hlt : noMergeable (b2 :: lt') = true := noMergeable_tail _ _ hl
      have ihh := ih hlt
      obtain ⟨c, t, hct, hc⟩ := mergeJoin_cons_head b2 lt' r
      show noMergeable (b :: mergeJoin (b2 :: lt') r) = true
      rw [hct] at ihh ⊢
      refine noMergeable_cons _ _ ?_ ihh
      intro c' t' hct'
      injection hct' with hc' ht'
      subst hc'
      rw [hc b]
      exact hb

/-- Normalized node lists satisfy the merge invariant. -/
theorem noMergeable_mergeNorm (nodes : List MNode) : noMergeable (mergeNorm nodes) = true := by
  have key : ∀ (ns : List MNode) (acc : List MNode), noMergeable acc = true →
      noMergeable (ns.foldl (fun acc n => mergeJoin acc [n]) acc) = true := by
    intro ns
    induction ns with
    | nil => intro acc h; exact h
    | cons n nt ih =>
      intro acc h
      exact ih _ (noMergeable_mergeJoin acc [n] h rfl)
  exact key nodes [] rfl

/-- The first component of a split starts (when non-empty) with a node that
merges with the same neighbours as the original head. -/
theorem splitOff_fst_head (l : List MNode) (k : Nat) :
    (splitOff l k).1 = [] ∨
      ∃ c t, (splitOff l k).1 = c :: t ∧
        ∃ m ms, l = m :: ms ∧ ∀ a, mergeable a c = mergeable a m := by
  cases l with
  | nil =>
    left
    cases k <;> rfl
  | cons m ms =>
    cases k with
    | zero => left; rfl
    | succ k' =>
      cases m with
      | text d a =>
        by_cases hlt : k' + 1 < (MNode.text d a).offsetSize
        · right
          refine ⟨.text (d.take (k' + 1)) a, [], ?_, .text d a, ms, rfl, ?_⟩
          · simp [splitOff, hlt]
          · intro x
            exact mergeable_text_right (d.take (k' + 1)) d a x
        · right
          refine ⟨.text d a, (splitOff ms (k' + 1 - (MNode.text d a).offsetSize)).1, ?_,
            .text d a, ms, rfl, fun x => rfl⟩
          simp [splitOff, hlt]
      | element nm at_ ch =>
        have hlt : ¬ (k' + 1 < (MNode.element nm at_ ch).offsetSize) := by
          simp [MNode.offsetSize]
        right
        refine ⟨.element nm at_ ch, (splitOff ms (k' + 1 - (MNode.element nm at_ ch).offsetSize)).1,
          ?_, .element nm at_ ch, ms, rfl, fun x => rfl⟩
        simp [splitOff, hlt]

/-- Splitting preserves the merge invariant on both parts. -/
theorem splitOff_noMergeable (l : List MNode) (k : Nat) (h : noMergeable l = true) :
    noMergeable (splitOff l k).1 = true ∧ noMergeable (splitOff l k).2 = true := by
  induction l generalizing k with
  | nil =>
    cases k <;> exact ⟨rfl, rfl⟩
  | cons n rest ih =>
    cases k with
    | zero => exact ⟨rfl, h⟩
    | succ k' =>
      have hrest : noMergeable rest = true := noMergeable_tail _ _ h
      cases n with
      | text d a =>
        by_cases hlt : k' + 1 < (MNode.text d a).offsetSize
        · constructor
          · simp [splitOff, hlt, noMergeable]
          · have hsnd : (splitOff (MNode.text d a :: rest) (k' + 1)).2
                = .text (d.drop (k' + 1)) a :: rest := by
              simp [splitOff, hlt]
            rw [hsnd]
            refine noMergeable_cons _ _ ?_ hrest
            intro c t hct
            subst hct
            rw [mergeable_of_text (d.drop (k' + 1)) d a c]
            exact noMergeable_cons_head _ _ _ h
        · obtain ⟨ih1, ih2⟩ := ih (k := k' + 1 - (MNode.text d a).offsetSize) hrest
          have hfst : (splitOff (MNode.text d a :: rest) (k' + 1)).1
              = .text d a :: (splitOff rest (k' + 1 - (MNode.text d a).offsetSize)).1 := by
            simp [splitOff, hlt]
          have hsnd : (splitOff (MNode.text d a :: rest) (k' + 1)).2
              = (splitOff rest (k' + 1 - (MNode.text d a).offsetSize)).2 := by
            simp [splitOff, hlt]
          refine ⟨?_, hsnd ▸ ih2⟩
          rw [hfst]
          refine noMergeable_cons _ _ ?_ ih1
          intro c t hct
          rcases splitOff_fst_head rest (k' + 1 - (MNode.text d a).offsetSize) with
            hemp | ⟨c', t', hct', m, ms, hms, hcm⟩
          · rw [hemp] at hct; cases hct
          · rw [hct'] at hct
            injection hct with hc ht
            subst hc
            rw [hcm (.text d a)]
            subst hms
            exact noMergeable_cons_head _ _ _ h
      | element nm at_ ch =>
        have hlt : ¬ (k' + 1 < (MNode.element nm at_ ch).offsetSize) := by
          simp [MNode.offsetSize]
        obtain ⟨ih1, ih2⟩ := ih (k := k' + 1 - (MNode.element nm at_ ch).offsetSize) hrest
        have hfst : (splitOff (MNode.element nm at_ ch :: rest) (k' + 1)).1
            = .element nm at_ ch
                :: (splitOff rest (k' + 1 - (MNode.element nm at_ ch).offsetSize)).1 := by
          simp [splitOff, hlt]
        have hsnd : (splitOff (MNode.element nm at_ ch :: rest) (k' + 1)).2
            = (splitOff rest (k' + 1 - (MNode.element nm at_ ch).offsetSize)).2 := by
          simp [splitOff, hlt]
        refine ⟨?_, hsnd ▸ ih2⟩
        rw [hfst]
        refine noMergeable_cons _ _ ?_ ih1
        intro c t hct
        exact mergeable_element_left nm at_ ch c

/-- Insertion preserves the merge invariant of the affected parent. -/
theorem noMergeable_insertFlat (children : List MNode) (off : Nat) (nodes : List MNode)
    (h : noMergeable children = true) :
    noMergeable (insertFlat children off nodes) = true := by
  obtain ⟨h1, h2⟩ := splitOff_noMergeable children off h
  exact noMergeable_mergeJoin _ _ h1
    (noMergeable_mergeJoin _ _ (noMergeable_mergeNorm nodes) h2)

/-- Removal preserves the merge invariant of the affected parent. -/
theorem noMergeable_removeFlat (children : List MNode) (s e : Nat)
    (h : noMergeable children = true) :
    noMergeable (removeFlat children s e).1 = true := by
  obtain ⟨h1, h2⟩ := splitOff_noMergeable children s h
  obtain ⟨h3, h4⟩ := splitOff_noMergeable (splitOff children s).2 (e - s) h2
  exact noMergeable_mergeJoin _ _ h1 h4

/-- Setting/removing an attribute across a flat range preserves the merge
invariant of the affected parent. -/
theorem noMergeable_setAttrFlat (children : List MNode) (s e : Nat) (key : String)
    (val : Option String) (h : noMergeable children = true) :
    noMergeable (setAttrFlat children s e key val) = true := by
  obtain ⟨h1, h2⟩ := splitOff_noMergeable children s h
  obtain ⟨h3, h4⟩ := splitOff_noMergeable (splitOff children s).2 (e - s) h2
  have hfold : ∀ (mid : List MNode) (acc : List MNode), noMergeable acc = true →
      noMergeable (mid.foldl (fun acc n => mergeJoin acc [n]) acc) = true := by
    intro mid
    induction mid with
    | nil => intro acc hacc; exact hacc
    | cons n nt ih =>
      intro acc hacc
      exact ih _ (noMergeable_mergeJoin acc [n] hacc rfl)
  exact noMergeable_mergeJoin _ _ (hfold _ _ h1) h4

/-- C4: after an Insert, Remove, Move or Attribute operation, no two adjacent
Text nodes in the affected parent share an identical attribute set — any such
pair produced at a mutation boundary is merged (invariant preservation: the
affected parent satisfied the invariant before the operation). -/
theorem merge_invariant_spec (children : List MNode) (h : noMergeable children = true) :
    (∀ off nodes, noMergeable (insertFlat children off nodes) = true) ∧
    (∀ s e, noMergeable (removeFlat children s e).1 = true) ∧
    (∀ s e off,
      noMergeable (insertFlat (removeFlat children s e).1 off (removeFlat children s e).2)
        = true) ∧
    (∀ s e key val, noMergeable (setAttrFlat children s e key val) = true) :=
  ⟨fun off nodes => noMergeable_insertFlat children off nodes h,
   fun s e => noMergeable_removeFlat children s e h,
   fun s e off =>
     noMergeable_insertFlat _ off _ (noMergeable_removeFlat children s e h),
   fun s e key val => noMergeable_setAttrFlat children s e key val h⟩

/-- Witness for C4 on the repository's test document: the merge-producing
insert, remove, same-parent move and attribute scenarios of
`src/tests/model/operation/utils.js`. -/
theorem merge_invariant_spec_witness :
    noMergeable (insertFlat demoChildren 3 [.text "xxx" [("bold", "true")]]) = true ∧
    noMergeable (removeFlat demoChildren 3 7).1 = true ∧
    noMergeable (insertFlat (removeFlat demoChildren 3 6).1 10
      (removeFlat demoChildren 3 6).2) = true ∧
    noMergeable (setAttrFlat demoChildren 0 3 "bold" (some "true")) = true :=
  ⟨(merge_invariant_spec demoChildren (by decide)).1 3 [.text "xxx" [("bold", "true")]],
   (merge_invariant_spec demoChildren (by decide)).2.1 3 7,
   (merge_invariant_spec demoChildren (by decide)).2.2.1 3 6 10,
   (merge_invariant_spec demoChildren (by decide)).2.2.2 0 3 "bold" (some "true")⟩

end CkEngine
